import Mathlib

set_option maxRecDepth 8000

/-!
Verification of the JSON translation pipeline (translate_json.py,
fix_non_translatable.py, retry_failed_translations.py, config.py).

Strings are modelled as `List Char` (a Python `str` is a sequence of code
points).  Records (Python dicts) are insertion-ordered association lists with
unique keys.  The remote provider is modelled as an oracle
`Nat → List Char → Option (List Char)` giving, for each global call index and
input text, either the translated text (`some r`) or a raised exception
(`none`); every definition below is a total Lean function, so the fact that
the pipeline catches all provider exceptions is reflected in the types.
-/

namespace Jsons

/-- Python's `str.rfind` helper: scan `s` left to right keeping the last
position where `pat` occurs (as a contiguous substring). -/
def beginsWith : List Char → List Char → Bool
  | [], _ => true
  | _ :: _, [] => false
  | a :: as, b :: bs => a = b && beginsWith as bs

/-- Python's `s.endswith(pat)`, as `endsIn s pat`. -/
def endsIn (s pat : List Char) : Bool :=
  beginsWith pat.reverse s.reverse

def rfindGo (pat : List Char) : List Char → Nat → Option Nat → Option Nat
  | [], i, best => if beginsWith pat [] then some i else best
  | c :: rest, i, best =>
    rfindGo pat rest (i + 1) (if beginsWith pat (c :: rest) then some i else best)

/-- Index of the last occurrence of `pat` in `s`
(Python `s.rfind(pat)`, with `none` standing for the return value `-1`). -/
def rfind (s pat : List Char) : Option Nat :=
  rfindGo pat s 0 none

-- config.py constants
def MAX_CHUNK_SIZE : Nat := 500
def MAX_RETRIES : Nat := 5
def TRANSLATION_SUFFIX : List Char := ['-', 'e', 'n']
def SENTENCE_DELIMITERS : List (List Char) :=
  [['.', ' '], ['.', '\n'], ['؟', ' '], ['!', ' '], ['،', ' '], ['\n', '\n'], ['\n']]

/-- The delimiter scan of `TextChunker._find_break_point`: the first delimiter
(in priority order) whose last occurrence lies strictly past `minPosition`
determines the cut, immediately after the delimiter. -/
def findDelimGo (chunk : List Char) (minPosition : Nat) : List (List Char) → Option Nat
  | [] => none
  | d :: ds =>
    match rfind chunk d with
    | some pos => if minPosition < pos then some (pos + d.length) else findDelimGo chunk minPosition ds
    | none => findDelimGo chunk minPosition ds

/-- The function `TextChunker._find_break_point`.  `min_position = int(max_size * 0.5)`
with the configured minimum-break ratio `0.5` is exactly `maxSize / 2` in
natural-number division. -/
def find_break_point (chunk : List Char) (maxSize : Nat) : Nat :=
  match findDelimGo chunk (maxSize / 2) SENTENCE_DELIMITERS with
  | some bp => bp
  | none => maxSize

/-- The `while remaining:` loop of `TextChunker.chunk_text`, with explicit
fuel; `fuel = remaining.length` always suffices (each iteration consumes at
least one character when `maxSize ≥ 1`). -/
def chunkTextGo : Nat → List Char → Nat → List (List Char)
  | 0, _, _ => []
  | fuel + 1, remaining, maxSize =>
    if remaining.isEmpty then []
    else if remaining.length ≤ maxSize then [remaining]
    else
      let bp := find_break_point (remaining.take maxSize) maxSize
      remaining.take bp :: chunkTextGo fuel (remaining.drop bp) maxSize

/-- The function `TextChunker.chunk_text`. -/
def chunk_text (text : List Char) (maxSize : Nat) : List (List Char) :=
  if text.length ≤ maxSize then [text]
  else chunkTextGo text.length text maxSize

-- ### Basic facts about the chunker

theorem beginsWith_length {pat s : List Char} (h : beginsWith pat s = true) :
    pat.length ≤ s.length := by
  induction pat generalizing s with
  | nil => simp
  | cons a as ih =>
    cases s with
    | nil => simp [beginsWith] at h
    | cons b bs =>
      simp only [beginsWith, Bool.and_eq_true] at h
      simpa using ih h.2

theorem rfindGo_bound {pat : List Char} (s : List Char) (i : Nat) (best : Option Nat)
    (hbest : ∀ b, best = some b → b + pat.length ≤ i + s.length) :
    ∀ r, rfindGo pat s i best = some r → r + pat.length ≤ i + s.length := by
  induction s generalizing i best with
  | nil =>
    intro r hr
    rw [rfindGo] at hr
    split at hr
    · rename_i hpre
      have hl := beginsWith_length hpre
      cases hr
      simp at hl
      simp [hl]
    · exact hbest r hr
  | cons c cs ih =>
    intro r hr
    rw [rfindGo] at hr
    have step : ∀ b, (if beginsWith pat (c :: cs) then some i else best) = some b →
        b + pat.length ≤ i + (c :: cs).length := by
      intro b hb
      split at hb
      · rename_i hpre
        have := beginsWith_length hpre
        cases hb
        omega
      · exact hbest b hb
    have hrec := ih (i + 1) _ (by
      intro b hb
      have := step b hb
      simpa [Nat.add_comm, Nat.add_left_comm, Nat.add_assoc] using this)
    have := hrec r hr
    simp only [List.length_cons]
    omega

theorem rfind_bound {s pat : List Char} {pos : Nat} (h : rfind s pat = some pos) :
    pos + pat.length ≤ s.length := by
  have := rfindGo_bound s 0 none (by intro b hb; cases hb) pos h
  simpa using this

/-- Characterization of a successful delimiter search. -/
theorem findDelimGo_some {chunk : List Char} {minPosition : Nat} {ds : List (List Char)}
    {bp : Nat} (h : findDelimGo chunk minPosition ds = some bp) :
    ∃ d ∈ ds, ∃ pos, rfind chunk d = some pos ∧ minPosition < pos ∧ bp = pos + d.length := by
  induction ds with
  | nil => simp [findDelimGo] at h
  | cons d ds ih =>
    rw [findDelimGo] at h
    split at h
    · rename_i pos hpos
      split at h
      · rename_i hgt
        cases h
        exact ⟨d, by simp, pos, hpos, hgt, rfl⟩
      · obtain ⟨d', hd', w⟩ := ih h
        exact ⟨d', by simp [hd'], w⟩
    · obtain ⟨d', hd', w⟩ := ih h
      exact ⟨d', by simp [hd'], w⟩

/-- If no delimiter has an occurrence past `minPosition`, the scan fails. -/
theorem findDelimGo_none {chunk : List Char} {minPosition : Nat} {ds : List (List Char)}
    (h : ∀ d ∈ ds, ∀ pos, rfind chunk d = some pos → pos ≤ minPosition) :
    findDelimGo chunk minPosition ds = none := by
  induction ds with
  | nil => rfl
  | cons d ds ih =>
    rw [findDelimGo]
    split
    · rename_i pos hpos
      have := h d (by simp) pos hpos
      have hnot : ¬ minPosition < pos := by omega
      simp only [if_neg hnot]
      exact ih (by intro d' hd' q hq; exact h d' (by simp [hd']) q hq)
    · exact ih (by intro d' hd' q hq; exact h d' (by simp [hd']) q hq)

/-- The break point is positive (given a positive `maxSize`), at least half of
`maxSize`, and at most `maxSize` when the candidate window has length
`≤ maxSize`. -/
theorem find_break_point_pos {c : List Char} {ms : Nat} (hms : 0 < ms) :
    1 ≤ find_break_point c ms ∧ ms ≤ 2 * find_break_point c ms := by
  unfold find_break_point
  split
  · rename_i bp h
    obtain ⟨d, _, pos, hpos, hgt, rfl⟩ := findDelimGo_some h
    constructor
    · omega
    · omega
  · omega

theorem find_break_point_le {c : List Char} {ms : Nat} (hc : c.length ≤ ms) :
    find_break_point c ms ≤ ms := by
  unfold find_break_point
  split
  · rename_i bp h
    obtain ⟨d, _, pos, hpos, _, rfl⟩ := findDelimGo_some h
    exact le_trans (rfind_bound hpos) hc
  · exact le_refl ms

/-- With fuel at least `remaining.length`, the chunking loop reproduces its
input by concatenation. -/
theorem chunkTextGo_join {ms : Nat} (hms : 0 < ms) :
    ∀ fuel remaining, remaining.length ≤ fuel →
      (chunkTextGo fuel remaining ms).flatten = remaining := by
  intro fuel
  induction fuel with
  | zero =>
    intro remaining h
    have : remaining = [] := List.length_eq_zero.mp (Nat.le_zero.mp h)
    simp [this, chunkTextGo]
  | succ n ih =>
    intro remaining h
    rw [chunkTextGo]
    split
    · rename_i he
      simp_all [List.isEmpty_iff]
    · split
      · simp
      · rename_i he hlen
        have hbp := find_break_point_pos (c := remaining.take ms) hms
        have hlt : ms < remaining.length := by omega
        have hdrop : (remaining.drop (find_break_point (remaining.take ms) ms)).length ≤ n := by
          simp only [List.length_drop]
          omega
        simp only [List.flatten_cons, ih _ hdrop, List.take_append_drop]

/-- Every chunk emitted by the loop has length at most `maxSize`. -/
theorem chunkTextGo_length {ms : Nat} :
    ∀ fuel remaining, ∀ c ∈ chunkTextGo fuel remaining ms, c.length ≤ ms := by
  intro fuel
  induction fuel with
  | zero => intro remaining c hc; simp [chunkTextGo] at hc
  | succ n ih =>
    intro remaining c hc
    rw [chunkTextGo] at hc
    split at hc
    · simp at hc
    · split at hc
      · rename_i hlen
        simp only [List.mem_singleton] at hc
        subst hc; exact hlen
      · rename_i he hlen
        simp only [List.mem_cons] at hc
        rcases hc with rfl | hc
        · have hlt : ms < remaining.length := by omega
          have htk : (remaining.take ms).length ≤ ms := by
            simp [List.length_take]
          have := find_break_point_le htk
          simp only [List.length_take]
          omega
        · exact ih _ c hc

/-- Shared helper: concatenating the chunks reproduces the text. -/
theorem chunk_text_flatten (s : List Char) (ms : Nat) (h : 0 < ms) :
    (chunk_text s ms).flatten = s := by
  unfold chunk_text
  split
  · simp
  · exact chunkTextGo_join h _ _ (le_refl _)

/-- Shared helper: every produced chunk has length at most `ms`. -/
theorem chunk_text_bound (s : List Char) (ms : Nat) :
    ∀ c ∈ chunk_text s ms, c.length ≤ ms := by
  intro c hc
  unfold chunk_text at hc
  split at hc
  · rename_i hle
    simp only [List.mem_singleton] at hc
    subst hc; exact hle
  · exact chunkTextGo_length _ _ c hc

/-- Shared helper: when no delimiter occurs strictly past `ms / 2` in the
candidate window, the break point is the hard break at exactly `ms`. -/
theorem find_break_point_hard (c : List Char) (ms : Nat)
    (h : ∀ d ∈ SENTENCE_DELIMITERS, (rfind c d).getD 0 ≤ ms / 2) :
    find_break_point c ms = ms := by
  unfold find_break_point
  rw [findDelimGo_none]
  intro d hd pos hpos
  have := h d hd
  rw [hpos] at this
  simpa using this

/-- C1: for every string `s` and every `maxSize > 0`, concatenating the chunks
returned by `TextChunker.chunk_text(s, maxSize)` in order reproduces `s`
exactly. -/
theorem C1_chunk_reconstruction (s : List Char) (ms : Nat) (h : 0 < ms) :
    (chunk_text s ms).flatten = s :=
  chunk_text_flatten s ms h

theorem C1_chunk_reconstruction_witness :
    0 < 4 ∧ (chunk_text ['a', 'b', '.', ' ', 'c', 'd', 'e'] 4).flatten
        = ['a', 'b', '.', ' ', 'c', 'd', 'e'] :=
  ⟨by decide, C1_chunk_reconstruction ['a', 'b', '.', ' ', 'c', 'd', 'e'] 4 (by decide)⟩

/-- C2: for every string `s` and every `maxSize > 0`, every chunk produced by
`TextChunker.chunk_text(s, maxSize)` has length at most `maxSize`; when no
delimiter qualifies (no delimiter occurs strictly past `maxSize / 2` in the
candidate window), `TextChunker._find_break_point` cuts at exactly `maxSize`,
never beyond it. -/
theorem C2_chunk_size_bound (s : List Char) (ms : Nat) (h : 0 < ms) :
    (∀ c ∈ chunk_text s ms, c.length ≤ ms) ∧
    (∀ c : List Char, (∀ d ∈ SENTENCE_DELIMITERS, (rfind c d).getD 0 ≤ ms / 2) →
      find_break_point c ms = ms) :=
  ⟨chunk_text_bound s ms, fun c hc => find_break_point_hard c ms hc⟩

theorem C2_chunk_size_bound_witness :
    (['a', 'b', '.', ' '].length ≤ 4) ∧ find_break_point ['x', 'x', 'x', 'x'] 4 = 4 :=
  ⟨(C2_chunk_size_bound ['a', 'b', '.', ' ', 'c', 'd', 'e'] 4 (by decide)).1
      ['a', 'b', '.', ' '] (by decide),
    (C2_chunk_size_bound ['a', 'b', '.', ' ', 'c', 'd', 'e'] 4 (by decide)).2
      ['x', 'x', 'x', 'x'] (by decide)⟩

/-- C8: for every text and every `maxSize ≥ 1`, the chunking loop terminates:
the break point is always positive, each iteration consumes at least
`0.5 × maxSize` characters of the remaining text (`ms ≤ 2 * breakPoint`), the
hard-break fallback (taken when no delimiter qualifies) advances by exactly
`maxSize` characters, and consequently the produced chunks partition the whole
text (their lengths sum to the text's length). -/
theorem C8_chunker_terminates (s c : List Char) (ms : Nat) (h : 0 < ms) :
    1 ≤ find_break_point c ms ∧ ms ≤ 2 * find_break_point c ms ∧
    ((∀ d ∈ SENTENCE_DELIMITERS, (rfind c d).getD 0 ≤ ms / 2) →
      find_break_point c ms = ms) ∧
    ((chunk_text s ms).map List.length).sum = s.length := by
  refine ⟨(find_break_point_pos h).1, (find_break_point_pos h).2,
    fun hc => find_break_point_hard c ms hc, ?_⟩
  have := chunk_text_flatten s ms h
  calc ((chunk_text s ms).map List.length).sum
      = (chunk_text s ms).flatten.length := (List.length_flatten _).symm
    _ = s.length := by rw [this]

theorem C8_chunker_terminates_witness :
    (1 ≤ find_break_point ['x', 'x', 'x'] 2 ∧ 2 ≤ 2 * find_break_point ['x', 'x', 'x'] 2) ∧
      find_break_point ['x', 'x', 'x'] 2 = 2 ∧
      ((chunk_text ['a', 'b', 'c', 'd', 'e'] 2).map List.length).sum = 5 :=
  ⟨⟨(C8_chunker_terminates ['a', 'b', 'c', 'd', 'e'] ['x', 'x', 'x'] 2 (by decide)).1,
      (C8_chunker_terminates ['a', 'b', 'c', 'd', 'e'] ['x', 'x', 'x'] 2 (by decide)).2.1⟩,
    (C8_chunker_terminates ['a', 'b', 'c', 'd', 'e'] ['x', 'x', 'x'] 2 (by decide)).2.2.1
      (by decide),
    (C8_chunker_terminates ['a', 'b', 'c', 'd', 'e'] ['x', 'x', 'x'] 2 (by decide)).2.2.2⟩

-- ### The retrying translator (class Translator)

/-- The remote provider (`GoogleTranslator.translate`), as an oracle: given
the global call index and the input text, either a translated text (`some`)
or a raised exception (`none`).  Every function below is total, which models
the fact that all provider exceptions are caught inside the translator. -/
def Provider : Type := Nat → List Char → Option (List Char)

/-- Characters stripped by Python's `str.strip()` (ASCII whitespace). -/
def pyIsSpace (c : Char) : Bool :=
  c = ' ' || c = '\t' || c = '\n' || c = '\r' || c = '\x0b' || c = '\x0c'

/-- Python `str.strip()`. -/
def pyStrip (s : List Char) : List Char :=
  ((s.dropWhile pyIsSpace).reverse.dropWhile pyIsSpace).reverse

/-- Python `str.lower()` (ASCII case folding; the literals involved are
ASCII and Arabic has no case). -/
def pyLower (s : List Char) : List Char :=
  s.map Char.toLower

/-- Python `sep.join(xs)`. -/
def pyJoin (sep : List Char) : List (List Char) → List Char
  | [] => []
  | [x] => x
  | x :: xs => x ++ sep ++ pyJoin sep xs

/-- The retry loop of `Translator._translate_single`, by the number of
remaining attempts (`n` remaining attempts corresponds to loop counter
`attempt = MAX_RETRIES - n`; `n = 1` is the final attempt, which returns the
input text on failure).  `calls` is the global provider call counter. -/
def translateSingleGo (p : Provider) (text : List Char) : Nat → Nat → List Char × Nat
  | 0, calls => (text, calls)
  | n + 1, calls =>
    match p calls text with
    | some r => (r, calls + 1)
    | none => if n = 0 then (text, calls + 1) else translateSingleGo p text n (calls + 1)

/-- The method `Translator._translate_single`. -/
def translate_single (p : Provider) (text : List Char) (calls : Nat) : List Char × Nat :=
  translateSingleGo p text MAX_RETRIES calls

/-- The per-chunk retry loop inside `Translator._translate_chunks` (same
shape as `_translate_single`: the chunk's own retry budget, falling back to
the original chunk). -/
def translateChunkGo (p : Provider) (chunk : List Char) : Nat → Nat → List Char × Nat
  | 0, calls => (chunk, calls)
  | n + 1, calls =>
    match p calls chunk with
    | some r => (r, calls + 1)
    | none => if n = 0 then (chunk, calls + 1) else translateChunkGo p chunk n (calls + 1)

def translateChunksGo (p : Provider) : List (List Char) → Nat → List (List Char) × Nat
  | [], calls => ([], calls)
  | c :: cs, calls =>
    ((translateChunkGo p c MAX_RETRIES calls).1 ::
        (translateChunksGo p cs (translateChunkGo p c MAX_RETRIES calls).2).1,
      (translateChunksGo p cs (translateChunkGo p c MAX_RETRIES calls).2).2)

/-- The method `Translator._translate_chunks`: every chunk is translated with its own
full retry budget and the results are joined with a single space. -/
def translate_chunks (p : Provider) (chunks : List (List Char)) (calls : Nat) :
    List Char × Nat :=
  (pyJoin [' '] (translateChunksGo p chunks calls).1,
    (translateChunksGo p chunks calls).2)

/-- The method `Translator.translate`: empty/whitespace-only text passes through;
otherwise the text is chunked (at the configured maximum chunk size) and
translated as a single unit or chunk by chunk. -/
def translate (p : Provider) (text : List Char) (calls : Nat) : List Char × Nat :=
  if pyStrip text = [] then (text, calls)
  else if (chunk_text text MAX_CHUNK_SIZE).length = 1 then translate_single p text calls
  else translate_chunks p (chunk_text text MAX_CHUNK_SIZE) calls

-- ### Facts about the retry loop

/-- When every provider call raises, the single-unit retry loop makes one
call per attempt and falls back to the input text. -/
theorem translateSingleGo_all_fail {p : Provider} {text : List Char}
    (hp : ∀ n, p n text = none) :
    ∀ a calls, translateSingleGo p text a calls = (text, calls + a) := by
  intro a
  induction a with
  | zero => intro calls; rfl
  | succ n ih =>
    intro calls
    rw [translateSingleGo, hp calls]
    cases n with
    | zero => simp
    | succ m =>
      simp only [Nat.succ_ne_zero, if_false, ih, Prod.mk.injEq]
      refine ⟨trivial, by omega⟩

/-- If the first `k` calls raise and the next succeeds (within budget), the
retry loop returns the successful result after exactly `k + 1` calls. -/
theorem translateSingleGo_converges {p : Provider} {text r : List Char} :
    ∀ k a calls, k < a → (∀ i, i < k → p (calls + i) text = none) →
      p (calls + k) text = some r →
      translateSingleGo p text a calls = (r, calls + k + 1) := by
  intro k
  induction k with
  | zero =>
    intro a calls ha _ hs
    obtain ⟨m, rfl⟩ := Nat.exists_eq_add_of_lt ha
    rw [translateSingleGo]
    simp only [Nat.add_zero] at hs
    rw [hs]
  | succ k ih =>
    intro a calls ha hf hs
    obtain ⟨m, rfl⟩ := Nat.exists_eq_add_of_lt ha
    have h0 := hf 0 (Nat.succ_pos k)
    simp only [Nat.add_zero] at h0
    have hkm : ¬ (k + 1 + m = 0) := by omega
    rw [translateSingleGo]
    simp only [h0, if_neg hkm]
    have := ih (k + 1 + m) (calls + 1) (by omega)
      (by intro i hi
          have := hf (i + 1) (by omega)
          simpa [Nat.add_comm, Nat.add_left_comm, Nat.add_assoc] using this)
      (by simpa [Nat.add_comm, Nat.add_left_comm, Nat.add_assoc] using hs)
    rw [this]
    simp only [Prod.mk.injEq]
    refine ⟨trivial, by omega⟩

/-- C4: for every input text and every provider behavior, `Translator.translate`
never raises to its caller (it is a total function into plain results, every
provider exception being caught inside the retry loops); and when all
`maxRetries` attempts for a single-chunk unit raise, the unit's original text
is returned verbatim. -/
theorem C4_translate_never_raises (p : Provider) (text : List Char) (calls : Nat)
    (hp : ∀ n, p n text = none)
    (h1 : (chunk_text text MAX_CHUNK_SIZE).length = 1) :
    (translate p text calls).1 = text := by
  unfold translate
  by_cases hb : pyStrip text = []
  · rw [if_pos hb]
  · rw [if_neg hb, if_pos h1]
    unfold translate_single
    rw [translateSingleGo_all_fail hp]

theorem C4_translate_never_raises_witness :
    (translate (fun _ _ => none) ['a', 'b'] 0).1 = ['a', 'b'] :=
  C4_translate_never_raises (fun _ _ => none) ['a', 'b'] 0 (fun _ => rfl) (by decide)

/-- C5: if the provider raises on the first `k` calls for a unit of text,
with `k < maxRetries`, and succeeds on the next call, then
`Translator._translate_single` returns the successful provider result and
makes exactly `k + 1` provider calls for that unit. -/
theorem C5_retry_convergence (p : Provider) (text r : List Char) (calls k : Nat)
    (hk : k < MAX_RETRIES)
    (hf : ∀ i, i < k → p (calls + i) text = none)
    (hs : p (calls + k) text = some r) :
    translate_single p text calls = (r, calls + (k + 1)) := by
  unfold translate_single
  have ha : calls + k + 1 = calls + (k + 1) := by omega
  rw [translateSingleGo_converges k MAX_RETRIES calls hk hf hs, ha]

theorem C5_retry_convergence_witness :
    translate_single (fun n _ => if n < 2 then none else some ['Z']) ['a', 'b'] 0
      = (['Z'], 3) :=
  C5_retry_convergence (fun n _ => if n < 2 then none else some ['Z']) ['a', 'b'] ['Z'] 0 2
    (by decide) (by decide) (by decide)

-- ### Records (Python dicts) and JSONTranslator._process_item

/-- A JSON value inside a record (string, number, boolean, or null). -/
inductive JValue : Type
  | str (s : List Char)
  | num (n : Int)
  | bool (b : Bool)
  | null
deriving DecidableEq

/-- A record: an insertion-ordered mapping from field names to values
(a Python dict; keys are unique). -/
abbrev Item : Type := List (List Char × JValue)

/-- Dict lookup (`item[k]` / `item.get(k)`). -/
def getVal : Item → List Char → Option JValue
  | [], _ => none
  | (k, v) :: rest, key => if k = key then some v else getVal rest key

/-- Dict membership (`k in item`). -/
def containsKey (item : Item) (key : List Char) : Bool :=
  (getVal item key).isSome

/-- Dict assignment (`item[k] = v`): replace in place if the key is present,
append at the end otherwise. -/
def setKey : Item → List Char → JValue → Item
  | [], key, v => [(key, v)]
  | (k, w) :: rest, key, v =>
    if k = key then (key, v) :: rest else (k, w) :: setKey rest key v

/-- The dataclass `TranslationStats` (the `total_items` field is set once per file). -/
structure Stats : Type where
  totalItems : Nat
  translatedFields : Nat
  skippedFields : Nat
  failedFields : Nat
deriving DecidableEq

/-- The field loop of `JSONTranslator._process_item`.  The first argument is
the snapshot `list(item.items())` taken at entry; the record itself is
threaded as `item` (new derived fields are added to it as the loop runs).
Returns the updated record, the updated statistics and the provider call
counter.  A field is skipped when its key already ends in the translation
suffix, when its value is not a string or is blank, or (counted) when its
derived key is already present; otherwise the value is translated, the
derived field is written, and the field is counted as translated when the
result differs from the value and as failed when it is identical. -/
def processItemGo (p : Provider) :
    List (List Char × JValue) → Item → Stats → Nat → Item × Stats × Nat
  | [], item, stats, calls => (item, stats, calls)
  | (key, JValue.str s) :: rest, item, stats, calls =>
    if endsIn key TRANSLATION_SUFFIX then processItemGo p rest item stats calls
    else if pyStrip s = [] then processItemGo p rest item stats calls
    else if containsKey item (key ++ TRANSLATION_SUFFIX) then
      processItemGo p rest item
        { stats with skippedFields := stats.skippedFields + 1 } calls
    else if (translate p s calls).1 = s then
      processItemGo p rest
        (setKey item (key ++ TRANSLATION_SUFFIX) (JValue.str (translate p s calls).1))
        { stats with failedFields := stats.failedFields + 1 } (translate p s calls).2
    else
      processItemGo p rest
        (setKey item (key ++ TRANSLATION_SUFFIX) (JValue.str (translate p s calls).1))
        { stats with translatedFields := stats.translatedFields + 1 } (translate p s calls).2
  | (_, _) :: rest, item, stats, calls => processItemGo p rest item stats calls

/-- The method `JSONTranslator._process_item`. -/
def process_item (p : Provider) (item : Item) (stats : Stats) (calls : Nat) :
    Item × Stats × Nat :=
  processItemGo p item item stats calls

/-- A field the translation pass acts on: its key does not end in the
translation suffix and its value is a non-blank string. -/
def isEligible : List Char × JValue → Bool
  | (key, JValue.str s) => !endsIn key TRANSLATION_SUFFIX && !(pyStrip s).isEmpty
  | _ => false

-- ### Dictionary lemmas

theorem getVal_mem {item : Item} {k : List Char} {v : JValue} (h : (k, v) ∈ item) :
    containsKey item k = true := by
  induction item with
  | nil => simp at h
  | cons e rest ih =>
    obtain ⟨k0, v0⟩ := e
    unfold containsKey getVal
    split
    · simp
    · rename_i hne
      simp only [List.mem_cons, Prod.mk.injEq] at h
      rcases h with ⟨rfl, rfl⟩ | h
      · exact absurd rfl hne
      · exact ih h

theorem containsKey_mem {item : Item} {k : List Char} (h : containsKey item k = true) :
    ∃ v, (k, v) ∈ item := by
  induction item with
  | nil => simp [containsKey, getVal] at h
  | cons e rest ih =>
    obtain ⟨k0, v0⟩ := e
    unfold containsKey getVal at h
    split at h
    · rename_i he
      subst he
      exact ⟨v0, by simp⟩
    · obtain ⟨v, hv⟩ := ih h
      exact ⟨v, by simp [hv]⟩

theorem getVal_append_some {a : Item} (b : Item) {k : List Char} {v : JValue}
    (h : getVal a k = some v) : getVal (a ++ b) k = some v := by
  induction a with
  | nil => simp [getVal] at h
  | cons e rest ih =>
    obtain ⟨k0, v0⟩ := e
    by_cases he : k0 = k
    · rw [getVal, if_pos he] at h
      simp only [List.cons_append]
      rw [getVal, if_pos he]
      exact h
    · rw [getVal, if_neg he] at h
      simp only [List.cons_append]
      rw [getVal, if_neg he]
      exact ih h

theorem getVal_append_none {a : Item} (b : Item) {k : List Char}
    (h : getVal a k = none) : getVal (a ++ b) k = getVal b k := by
  induction a with
  | nil => simp [getVal]
  | cons e rest ih =>
    obtain ⟨k0, v0⟩ := e
    by_cases he : k0 = k
    · rw [getVal, if_pos he] at h
      exact absurd h (by simp)
    · rw [getVal, if_neg he] at h
      simp only [List.cons_append]
      rw [getVal, if_neg he]
      exact ih h

theorem setKey_append {item : Item} {k : List Char} (v : JValue)
    (h : containsKey item k = false) : setKey item k v = item ++ [(k, v)] := by
  induction item with
  | nil => rfl
  | cons e rest ih =>
    obtain ⟨k0, v0⟩ := e
    by_cases he : k0 = k
    · rw [containsKey, getVal, if_pos he] at h
      simp at h
    · rw [containsKey, getVal, if_neg he] at h
      rw [setKey, if_neg he, ih h]
      simp

theorem getVal_setKey_self (item : Item) (k : List Char) (v : JValue) :
    getVal (setKey item k v) k = some v := by
  induction item with
  | nil => simp [setKey, getVal]
  | cons e rest ih =>
    obtain ⟨k0, v0⟩ := e
    by_cases he : k0 = k
    · rw [setKey, if_pos he, getVal, if_pos rfl]
    · rw [setKey, if_neg he, getVal, if_neg he]
      exact ih

theorem getVal_setKey_ne (item : Item) {k q : List Char} (v : JValue) (h : q ≠ k) :
    getVal (setKey item k v) q = getVal item q := by
  induction item with
  | nil =>
    simp only [setKey, getVal]
    rw [if_neg (fun he => h he.symm)]
  | cons e rest ih =>
    obtain ⟨k0, v0⟩ := e
    by_cases he : k0 = k
    · subst he
      rw [setKey, if_pos rfl, getVal, if_neg (fun he => h he.symm), getVal,
        if_neg (fun he => h he.symm)]
    · rw [setKey, if_neg he]
      by_cases hq : k0 = q
      · rw [getVal, if_pos hq, getVal, if_pos hq]
      · rw [getVal, if_neg hq, getVal, if_neg hq]
        exact ih

-- ### C7: idempotence of the translation pass

theorem processItemGo_all_present (p : Provider) (item : Item) :
    ∀ (entries : List (List Char × JValue)) (stats : Stats) (calls : Nat),
      (∀ k s, (k, JValue.str s) ∈ entries → endsIn k TRANSLATION_SUFFIX = false →
        pyStrip s ≠ [] → containsKey item (k ++ TRANSLATION_SUFFIX) = true) →
      processItemGo p entries item stats calls =
        (item,
          { stats with skippedFields :=
              stats.skippedFields + (entries.filter isEligible).length },
          calls) := by
  intro entries
  induction entries with
  | nil => intro stats calls h; simp [processItemGo]
  | cons e rest ih =>
    intro stats calls h
    obtain ⟨key, value⟩ := e
    have hrest := fun k s hm h1 h2 => h k s (List.mem_cons_of_mem _ hm) h1 h2
    cases value with
    | str s =>
      rw [processItemGo]
      by_cases hsuf : endsIn key TRANSLATION_SUFFIX = true
      · rw [if_pos hsuf, ih _ _ hrest]
        have helig : isEligible (key, JValue.str s) = false := by
          simp [isEligible, hsuf]
        simp [List.filter_cons, helig]
      · rw [if_neg hsuf]
        rw [Bool.not_eq_true] at hsuf
        by_cases hblank : pyStrip s = []
        · rw [if_pos hblank, ih _ _ hrest]
          have helig : isEligible (key, JValue.str s) = false := by
            simp [isEligible, List.isEmpty_iff, hblank]
          simp [List.filter_cons, helig]
        · rw [if_neg hblank]
          have hck := h key s (List.mem_cons_self _ _) hsuf hblank
          rw [if_pos hck, ih _ _ hrest]
          have helig : isEligible (key, JValue.str s) = true := by
            simp [isEligible, List.isEmpty_iff, hblank, hsuf]
          have harith : stats.skippedFields + 1 + (List.filter isEligible rest).length
              = stats.skippedFields + ((List.filter isEligible rest).length + 1) := by
            omega
          simp [List.filter_cons, helig, harith]
    | num n =>
      show processItemGo p rest item stats calls = _
      rw [ih _ _ hrest]
      simp [List.filter_cons, isEligible]
    | bool b =>
      show processItemGo p rest item stats calls = _
      rw [ih _ _ hrest]
      simp [List.filter_cons, isEligible]
    | null =>
      show processItemGo p rest item stats calls = _
      rw [ih _ _ hrest]
      simp [List.filter_cons, isEligible]

/-- C7: running the translation pass on a record in which every eligible
field (non-suffix key with a non-empty string value) already has its derived
field present mutates nothing: the record is returned unchanged, no provider
call is made, and every eligible field is counted as skipped. -/
theorem C7_idempotence (p : Provider) (item : Item) (stats : Stats) (calls : Nat)
    (h : ∀ k s, (k, JValue.str s) ∈ item → endsIn k TRANSLATION_SUFFIX = false →
      pyStrip s ≠ [] → containsKey item (k ++ TRANSLATION_SUFFIX) = true) :
    process_item p item stats calls =
      (item,
        { stats with skippedFields :=
            stats.skippedFields + (item.filter isEligible).length },
        calls) :=
  processItemGo_all_present p item item stats calls h

theorem C7_idempotence_witness :
    process_item (fun _ _ => some ['Z'])
        [(['a'], JValue.str ['x']), (['a', '-', 'e', 'n'], JValue.str ['y'])]
        ⟨1, 0, 0, 0⟩ 0
      = ([(['a'], JValue.str ['x']), (['a', '-', 'e', 'n'], JValue.str ['y'])],
          ⟨1, 0, 1, 0⟩, 0) := by
  have h := C7_idempotence (fun _ _ => some ['Z'])
    [(['a'], JValue.str ['x']), (['a', '-', 'e', 'n'], JValue.str ['y'])] ⟨1, 0, 0, 0⟩ 0
    (by
      intro k s hm h1 h2
      simp only [List.mem_cons, List.not_mem_nil, or_false, Prod.mk.injEq,
        JValue.str.injEq] at hm
      rcases hm with ⟨rfl, rfl⟩ | ⟨rfl, rfl⟩
      · decide
      · exact absurd h1 (by decide))
  rw [h]
  decide

-- ### C10: the translation pass only appends fresh derived keys

/-- The records reachable from `base` during the translation pass: `base`
followed by derived fields whose keys are `k ++ suffix` for source keys `k`
of `base`. -/
def AddedFrom (base added : Item) : Prop :=
  ∀ e ∈ added, ∃ k0, containsKey base k0 = true ∧ e.1 = k0 ++ TRANSLATION_SUFFIX

theorem processItemGo_frame (p : Provider) (base : Item) :
    ∀ (entries : List (List Char × JValue)) (added : Item) (stats : Stats) (calls : Nat),
      (∀ e ∈ entries, e ∈ base) → AddedFrom base added →
      ∃ added2, (processItemGo p entries (base ++ added) stats calls).1 = base ++ added2 ∧
        AddedFrom base added2 := by
  intro entries
  induction entries with
  | nil =>
    intro added stats calls _ hadd
    exact ⟨added, rfl, hadd⟩
  | cons e rest ih =>
    intro added stats calls hsub hadd
    have hsub2 : ∀ e ∈ rest, e ∈ base := fun x hx => hsub x (List.mem_cons_of_mem _ hx)
    obtain ⟨key, value⟩ := e
    cases value with
    | str s =>
      rw [processItemGo]
      by_cases hsuf : endsIn key TRANSLATION_SUFFIX = true
      · rw [if_pos hsuf]
        exact ih added stats calls hsub2 hadd
      · rw [if_neg hsuf]
        by_cases hblank : pyStrip s = []
        · rw [if_pos hblank]
          exact ih added stats calls hsub2 hadd
        · rw [if_neg hblank]
          by_cases hck : containsKey (base ++ added) (key ++ TRANSLATION_SUFFIX) = true
          · rw [if_pos hck]
            exact ih added _ calls hsub2 hadd
          · rw [Bool.not_eq_true] at hck
            rw [if_neg (by simp [hck])]
            have hset := setKey_append
              (JValue.str (translate p s calls).1) hck
            have hkey : containsKey base key = true :=
              getVal_mem (hsub _ (List.mem_cons_self _ _))
            have hadd2 : AddedFrom base
                (added ++ [(key ++ TRANSLATION_SUFFIX, JValue.str (translate p s calls).1)]) := by
              intro x hx
              rcases List.mem_append.mp hx with hx | hx
              · exact hadd x hx
              · simp only [List.mem_singleton] at hx
                subst hx
                exact ⟨key, hkey, rfl⟩
            have heq : setKey (base ++ added) (key ++ TRANSLATION_SUFFIX)
                  (JValue.str (translate p s calls).1)
                = base ++ (added ++ [(key ++ TRANSLATION_SUFFIX, JValue.str (translate p s calls).1)]) := by
              rw [hset, List.append_assoc]
            by_cases htr : (translate p s calls).1 = s
            · rw [if_pos htr, heq]
              exact ih _ _ _ hsub2 hadd2
            · rw [if_neg htr, heq]
              exact ih _ _ _ hsub2 hadd2
    | num n =>
      show ∃ added2, (processItemGo p rest (base ++ added) stats calls).1 = base ++ added2 ∧ _
      exact ih added stats calls hsub2 hadd
    | bool b =>
      show ∃ added2, (processItemGo p rest (base ++ added) stats calls).1 = base ++ added2 ∧ _
      exact ih added stats calls hsub2 hadd
    | null =>
      show ∃ added2, (processItemGo p rest (base ++ added) stats calls).1 = base ++ added2 ∧ _
      exact ih added stats calls hsub2 hadd

/-- C10: the initial translation pass (`JSONTranslator._process_item`) never
deletes a key and never changes the value of any key already present in the
record; its only mutation is adding new keys of the form `key ++ suffix`,
added only when that derived key was absent from the record. -/
theorem C10_process_item_frame (p : Provider) (item : Item) (stats : Stats) (calls : Nat) :
    (∀ k, containsKey item k = true →
      getVal (process_item p item stats calls).1 k = getVal item k) ∧
    (∀ k, containsKey (process_item p item stats calls).1 k = true →
      containsKey item k = false →
      ∃ k0, containsKey item k0 = true ∧ k = k0 ++ TRANSLATION_SUFFIX) := by
  obtain ⟨added, h1, h2⟩ :=
    processItemGo_frame p item item [] ⟨stats.totalItems, stats.translatedFields,
      stats.skippedFields, stats.failedFields⟩ calls (fun e he => he) (by intro e he; simp at he)
  have h1' : (process_item p item stats calls).1 = item ++ added := by
    unfold process_item
    have : (⟨stats.totalItems, stats.translatedFields, stats.skippedFields,
        stats.failedFields⟩ : Stats) = stats := rfl
    rw [this] at h1
    simpa using h1
  constructor
  · intro k hk
    rw [h1']
    unfold containsKey at hk
    cases hv : getVal item k with
    | none => rw [hv] at hk; simp at hk
    | some v => exact getVal_append_some added hv
  · intro k hk hnk
    rw [h1'] at hk
    unfold containsKey at hk hnk
    cases hv : getVal item k with
    | some v => rw [hv] at hnk; simp at hnk
    | none =>
      rw [getVal_append_none added hv] at hk
      have : containsKey added k = true := hk
      obtain ⟨v, hv2⟩ := containsKey_mem this
      obtain ⟨k0, hk0, hkey⟩ := h2 _ hv2
      exact ⟨k0, hk0, hkey⟩

theorem C10_process_item_frame_witness :
    getVal (process_item (fun _ _ => some ['T', 'R', 'U', 'E'])
        [(['f', 'l', 'a', 'g'], JValue.str ['t', 'r', 'u', 'e'])] ⟨1, 0, 0, 0⟩ 0).1
        ['f', 'l', 'a', 'g']
      = getVal [(['f', 'l', 'a', 'g'], JValue.str ['t', 'r', 'u', 'e'])] ['f', 'l', 'a', 'g'] ∧
    ∃ k0, containsKey [(['f', 'l', 'a', 'g'], JValue.str ['t', 'r', 'u', 'e'])] k0 = true ∧
      ['f', 'l', 'a', 'g', '-', 'e', 'n'] = k0 ++ TRANSLATION_SUFFIX :=
  ⟨(C10_process_item_frame (fun _ _ => some ['T', 'R', 'U', 'E'])
      [(['f', 'l', 'a', 'g'], JValue.str ['t', 'r', 'u', 'e'])] ⟨1, 0, 0, 0⟩ 0).1
      ['f', 'l', 'a', 'g'] (by decide),
    (C10_process_item_frame (fun _ _ => some ['T', 'R', 'U', 'E'])
      [(['f', 'l', 'a', 'g'], JValue.str ['t', 'r', 'u', 'e'])] ⟨1, 0, 0, 0⟩ 0).2
      ['f', 'l', 'a', 'g', '-', 'e', 'n'] (by decide) (by decide)⟩

-- ### C3: behavior under a provider that returns its input unchanged

/-- A provider that always returns its input unchanged and never raises. -/
def idProvider : Provider := fun _ t => some t

theorem pyJoin_space_length (xs : List (List Char)) :
    (pyJoin [' '] xs).length = xs.flatten.length + (xs.length - 1) := by
  induction xs with
  | nil => simp [pyJoin]
  | cons x rest ih =>
    cases rest with
    | nil => simp [pyJoin]
    | cons y t =>
      have hstep : pyJoin [' '] (x :: y :: t) = x ++ [' '] ++ pyJoin [' '] (y :: t) := rfl
      rw [hstep]
      rw [List.length_append, List.length_append, ih]
      simp only [List.flatten_cons, List.length_append, List.length_cons,
        List.length_nil]
      omega

theorem translateChunkGo_id (c : List Char) (calls : Nat) :
    translateChunkGo idProvider c MAX_RETRIES calls = (c, calls + 1) := rfl

theorem translateChunksGo_id (cs : List (List Char)) :
    ∀ calls, translateChunksGo idProvider cs calls = (cs, calls + cs.length) := by
  induction cs with
  | nil => intro calls; rfl
  | cons c rest ih =>
    intro calls
    rw [translateChunksGo]
    simp only [translateChunkGo_id, ih]
    simp only [Prod.mk.injEq, List.length_cons]
    refine ⟨trivial, by omega⟩

theorem translate_single_id (s : List Char) (calls : Nat) :
    translate_single idProvider s calls = (s, calls + 1) := rfl

theorem translate_id_single (s : List Char) (calls : Nat) (hb : pyStrip s ≠ [])
    (h1 : (chunk_text s MAX_CHUNK_SIZE).length = 1) :
    translate idProvider s calls = (s, calls + 1) := by
  unfold translate
  rw [if_neg hb, if_pos h1]
  exact translate_single_id s calls

theorem translate_id_multi (s : List Char) (calls : Nat) (hb : pyStrip s ≠ [])
    (h1 : (chunk_text s MAX_CHUNK_SIZE).length ≠ 1) :
    translate idProvider s calls
      = (pyJoin [' '] (chunk_text s MAX_CHUNK_SIZE),
          calls + (chunk_text s MAX_CHUNK_SIZE).length) := by
  unfold translate
  rw [if_neg hb, if_neg h1]
  unfold translate_chunks
  rw [translateChunksGo_id]

/-- A multi-chunk text, rejoined with single spaces, is strictly longer than
the original (one extra space per seam), hence different from it. -/
theorem multi_join_ne (s : List Char) (hb : pyStrip s ≠ [])
    (h1 : (chunk_text s MAX_CHUNK_SIZE).length ≠ 1) :
    pyJoin [' '] (chunk_text s MAX_CHUNK_SIZE) ≠ s := by
  have hflat : (chunk_text s MAX_CHUNK_SIZE).flatten = s :=
    chunk_text_flatten s MAX_CHUNK_SIZE (by decide)
  have hne : chunk_text s MAX_CHUNK_SIZE ≠ [] := by
    intro h0
    rw [h0] at hflat
    exact hb (by rw [← hflat]; rfl)
  have hlen2 : 2 ≤ (chunk_text s MAX_CHUNK_SIZE).length := by
    have h0 : (chunk_text s MAX_CHUNK_SIZE).length ≠ 0 := by
      intro hz
      exact hne (List.length_eq_zero.mp hz)
    omega
  intro heq
  have hl := pyJoin_space_length (chunk_text s MAX_CHUNK_SIZE)
  rw [heq, hflat] at hl
  omega

theorem self_ne_append_en (k : List Char) : k ≠ k ++ TRANSLATION_SUFFIX := by
  intro h
  have := congrArg List.length h
  simp [TRANSLATION_SUFFIX] at this

/-- Processing a single-field record with the identity provider: a
single-chunk value comes back unchanged and is counted as failed; a
multi-chunk value comes back as the chunks joined by single spaces, which
differs from the source, and is counted as translated. -/
theorem processItem_single_id (k s : List Char) (stats : Stats) (calls : Nat)
    (hk : endsIn k TRANSLATION_SUFFIX = false) (hs : pyStrip s ≠ []) :
    if (chunk_text s MAX_CHUNK_SIZE).length = 1 then
      process_item idProvider [(k, JValue.str s)] stats calls
        = ([(k, JValue.str s), (k ++ TRANSLATION_SUFFIX, JValue.str s)],
            { stats with failedFields := stats.failedFields + 1 }, calls + 1)
    else
      pyJoin [' '] (chunk_text s MAX_CHUNK_SIZE) ≠ s ∧
      process_item idProvider [(k, JValue.str s)] stats calls
        = ([(k, JValue.str s),
            (k ++ TRANSLATION_SUFFIX,
              JValue.str (pyJoin [' '] (chunk_text s MAX_CHUNK_SIZE)))],
            { stats with translatedFields := stats.translatedFields + 1 },
            calls + (chunk_text s MAX_CHUNK_SIZE).length) := by
  have hck : containsKey [(k, JValue.str s)] (k ++ TRANSLATION_SUFFIX) = false := by
    unfold containsKey getVal
    rw [if_neg (self_ne_append_en k)]
    rfl
  have hset : ∀ v : JValue, setKey [(k, JValue.str s)] (k ++ TRANSLATION_SUFFIX) v
      = [(k, JValue.str s), (k ++ TRANSLATION_SUFFIX, v)] := by
    intro v
    rw [setKey_append v hck]
    rfl
  by_cases h1 : (chunk_text s MAX_CHUNK_SIZE).length = 1
  · rw [if_pos h1]
    unfold process_item
    rw [processItemGo, if_neg (by simp [hk]), if_neg hs, if_neg (by simp [hck]),
      translate_id_single s calls hs h1]
    rw [if_pos rfl, hset]
    rfl
  · rw [if_neg h1]
    have hjoin := multi_join_ne s hs h1
    refine ⟨hjoin, ?_⟩
    unfold process_item
    rw [processItemGo, if_neg (by simp [hk]), if_neg hs, if_neg (by simp [hck]),
      translate_id_multi s calls hs h1]
    rw [if_neg hjoin, hset]
    rfl

/-- C3 (corrected): with a provider that always returns its input unchanged
and never raises, a field whose value fits in a single chunk ends with its
derived value equal to the source value and is counted as failed; but a field
whose value is split into multiple chunks ends with its derived value equal
to the chunks rejoined by single spaces — which differs from the source — and
is counted as translated, not failed. -/
theorem C3_identity_provider (k s : List Char) (stats : Stats) (calls : Nat)
    (hk : endsIn k TRANSLATION_SUFFIX = false) (hs : pyStrip s ≠ []) :
    if (chunk_text s MAX_CHUNK_SIZE).length = 1 then
      process_item idProvider [(k, JValue.str s)] stats calls
        = ([(k, JValue.str s), (k ++ TRANSLATION_SUFFIX, JValue.str s)],
            { stats with failedFields := stats.failedFields + 1 }, calls + 1)
    else
      pyJoin [' '] (chunk_text s MAX_CHUNK_SIZE) ≠ s ∧
      process_item idProvider [(k, JValue.str s)] stats calls
        = ([(k, JValue.str s),
            (k ++ TRANSLATION_SUFFIX,
              JValue.str (pyJoin [' '] (chunk_text s MAX_CHUNK_SIZE)))],
            { stats with translatedFields := stats.translatedFields + 1 },
            calls + (chunk_text s MAX_CHUNK_SIZE).length) :=
  processItem_single_id k s stats calls hk hs

theorem C3_identity_provider_witness :
    process_item idProvider [(['t'], JValue.str ['h', 'i'])] ⟨1, 0, 0, 0⟩ 0
      = ([(['t'], JValue.str ['h', 'i']), (['t', '-', 'e', 'n'], JValue.str ['h', 'i'])],
          ⟨1, 0, 0, 1⟩, 1) := by
  have h := C3_identity_provider ['t'] ['h', 'i'] ⟨1, 0, 0, 0⟩ 0 (by decide) (by decide)
  rw [if_pos (by decide : (chunk_text ['h', 'i'] MAX_CHUNK_SIZE).length = 1)] at h
  exact h

/-- A 501-character value: one more than the configured maximum chunk size,
so it is split into two chunks. -/
def longA : List Char := List.replicate 501 'a'

/-- C3 fails as stated: with the identity provider, a field long enough to be
split into multiple chunks is written back with extra spaces (derived value
differs from the source value) and is counted as translated, not failed. -/
theorem C3_counterexample :
    (process_item idProvider [(['n'], JValue.str longA)] ⟨1, 0, 0, 0⟩ 0).2.1.translatedFields
        = 1 ∧
    (process_item idProvider [(['n'], JValue.str longA)] ⟨1, 0, 0, 0⟩ 0).2.1.failedFields = 0 ∧
    getVal (process_item idProvider [(['n'], JValue.str longA)] ⟨1, 0, 0, 0⟩ 0).1
        ['n', '-', 'e', 'n'] ≠ some (JValue.str longA) := by
  have hblank : pyStrip longA ≠ [] := by decide
  have hlen : (chunk_text longA MAX_CHUNK_SIZE).length = 2 := by decide
  have h1 : (chunk_text longA MAX_CHUNK_SIZE).length ≠ 1 := by rw [hlen]; decide
  have h := processItem_single_id ['n'] longA ⟨1, 0, 0, 0⟩ 0 (by decide) hblank
  rw [if_neg h1] at h
  obtain ⟨hne, heq⟩ := h
  rw [heq]
  refine ⟨rfl, rfl, ?_⟩
  have hg : getVal
      [(['n'], JValue.str longA),
        (['n'] ++ TRANSLATION_SUFFIX, JValue.str (pyJoin [' '] (chunk_text longA MAX_CHUNK_SIZE)))]
      ['n', '-', 'e', 'n']
      = some (JValue.str (pyJoin [' '] (chunk_text longA MAX_CHUNK_SIZE))) := by
    rw [getVal, if_neg (by decide), getVal, if_pos (by rfl)]
  rw [hg]
  intro hcontra
  have : pyJoin [' '] (chunk_text longA MAX_CHUNK_SIZE) = longA := by
    injection hcontra with h2
    injection h2
  exact hne this

-- ### C6: non-translatable literals (fix_non_translatable.py)

/-- The set `NonTranslatableFixer.NON_TRANSLATABLE_VALUES` (only membership is
used). -/
def NON_TRANSLATABLE_VALUES : List (List Char) :=
  [['t', 'r', 'u', 'e'], ['f', 'a', 'l', 's', 'e'], ['n', 'u', 'l', 'l'],
    ['y', 'e', 's'], ['n', 'o'],
    ['0'], ['1'], ['2'], ['3'], ['4'], ['5'], ['6'], ['7'], ['8'], ['9']]

/-- The per-record loop of `NonTranslatableFixer._fix_file`: for every
non-suffix string field whose value lowercased and stripped is a
non-translatable literal, the original value is written verbatim into the
derived field — created when absent, overwritten when present and different.
The fixer has no provider at all: no provider call can occur. -/
def fixItemGo : List (List Char × JValue) → Item → Bool → Nat → Item × Bool × Nat
  | [], item, modified, fixedCount => (item, modified, fixedCount)
  | (key, JValue.str s) :: rest, item, modified, fixedCount =>
    if endsIn key TRANSLATION_SUFFIX then fixItemGo rest item modified fixedCount
    else if pyStrip (pyLower s) ∈ NON_TRANSLATABLE_VALUES then
      if containsKey item (key ++ TRANSLATION_SUFFIX) = true ∧
          getVal item (key ++ TRANSLATION_SUFFIX) ≠ some (JValue.str s) then
        fixItemGo rest (setKey item (key ++ TRANSLATION_SUFFIX) (JValue.str s))
          true (fixedCount + 1)
      else if containsKey item (key ++ TRANSLATION_SUFFIX) = false then
        fixItemGo rest (setKey item (key ++ TRANSLATION_SUFFIX) (JValue.str s))
          true (fixedCount + 1)
      else fixItemGo rest item modified fixedCount
    else fixItemGo rest item modified fixedCount
  | (_, _) :: rest, item, modified, fixedCount => fixItemGo rest item modified fixedCount

/-- One record of `NonTranslatableFixer._fix_file` (snapshot iteration, like
`_process_item`). -/
def fix_item (item : Item) : Item × Bool × Nat :=
  fixItemGo item item false 0

theorem fixItemGo_preserve (k s : List Char) :
    ∀ (entries : List (List Char × JValue)) (cur : Item) (m : Bool) (f : Nat),
      (∀ e ∈ entries, e.1 ≠ k) →
      getVal cur (k ++ TRANSLATION_SUFFIX) = some (JValue.str s) →
      getVal (fixItemGo entries cur m f).1 (k ++ TRANSLATION_SUFFIX)
        = some (JValue.str s) := by
  intro entries
  induction entries with
  | nil => intro cur m f _ hcur; exact hcur
  | cons e rest ih =>
    intro cur m f hne hcur
    have hne2 : ∀ e ∈ rest, e.1 ≠ k := fun x hx => hne x (List.mem_cons_of_mem _ hx)
    have hkey : e.1 ≠ k := hne e (List.mem_cons_self _ _)
    obtain ⟨key, value⟩ := e
    have hkeys : key ++ TRANSLATION_SUFFIX ≠ k ++ TRANSLATION_SUFFIX := by
      intro hc
      exact hkey (List.append_cancel_right hc)
    have hpres : ∀ v : JValue,
        getVal (setKey cur (key ++ TRANSLATION_SUFFIX) v) (k ++ TRANSLATION_SUFFIX)
          = some (JValue.str s) := by
      intro v
      rw [getVal_setKey_ne cur v hkeys.symm]
      exact hcur
    cases value with
    | str s2 =>
      rw [fixItemGo]
      by_cases h1 : endsIn key TRANSLATION_SUFFIX = true
      · rw [if_pos h1]; exact ih cur m f hne2 hcur
      · rw [if_neg h1]
        by_cases h2 : pyStrip (pyLower s2) ∈ NON_TRANSLATABLE_VALUES
        · rw [if_pos h2]
          by_cases h3 : containsKey cur (key ++ TRANSLATION_SUFFIX) = true ∧
              getVal cur (key ++ TRANSLATION_SUFFIX) ≠ some (JValue.str s2)
          · rw [if_pos h3]
            exact ih _ _ _ hne2 (hpres _)
          · rw [if_neg h3]
            by_cases h4 : containsKey cur (key ++ TRANSLATION_SUFFIX) = false
            · rw [if_pos h4]
              exact ih _ _ _ hne2 (hpres _)
            · rw [if_neg h4]
              exact ih cur m f hne2 hcur
        · rw [if_neg h2]; exact ih cur m f hne2 hcur
    | num n =>
      show getVal (fixItemGo rest cur m f).1 _ = _
      exact ih cur m f hne2 hcur
    | bool b =>
      show getVal (fixItemGo rest cur m f).1 _ = _
      exact ih cur m f hne2 hcur
    | null =>
      show getVal (fixItemGo rest cur m f).1 _ = _
      exact ih cur m f hne2 hcur

theorem fixItemGo_sets (k s : List Char) (hk : endsIn k TRANSLATION_SUFFIX = false)
    (hv : pyStrip (pyLower s) ∈ NON_TRANSLATABLE_VALUES) :
    ∀ (entries : List (List Char × JValue)) (cur : Item) (m : Bool) (f : Nat),
      (k, JValue.str s) ∈ entries → (entries.map Prod.fst).Nodup →
      getVal (fixItemGo entries cur m f).1 (k ++ TRANSLATION_SUFFIX)
        = some (JValue.str s) := by
  intro entries
  induction entries with
  | nil => intro cur m f hmem _; simp at hmem
  | cons e rest ih =>
    intro cur m f hmem hnd
    obtain ⟨key, value⟩ := e
    rw [List.map_cons, List.nodup_cons] at hnd
    rcases List.mem_cons.mp hmem with heq | hmem2
    · -- this entry is the qualifying field itself
      injection heq with h1 h2
      subst h1
      subst h2
      have hrest : ∀ e ∈ rest, e.1 ≠ k := by
        intro x hx hc
        have hmm : x.1 ∈ rest.map Prod.fst := List.mem_map_of_mem Prod.fst hx
        rw [hc] at hmm
        exact hnd.1 hmm
      rw [fixItemGo, if_neg (by simp [hk]), if_pos hv]
      by_cases h3 : containsKey cur (k ++ TRANSLATION_SUFFIX) = true ∧
          getVal cur (k ++ TRANSLATION_SUFFIX) ≠ some (JValue.str s)
      · rw [if_pos h3]
        exact fixItemGo_preserve k s rest _ _ _ hrest (getVal_setKey_self cur _ _)
      · rw [if_neg h3]
        by_cases h4 : containsKey cur (k ++ TRANSLATION_SUFFIX) = false
        · rw [if_pos h4]
          exact fixItemGo_preserve k s rest _ _ _ hrest (getVal_setKey_self cur _ _)
        · rw [if_neg h4]
          have hcont : containsKey cur (k ++ TRANSLATION_SUFFIX) = true := by
            cases hcc : containsKey cur (k ++ TRANSLATION_SUFFIX) with
            | false => exact absurd hcc h4
            | true => rfl
          have hval : getVal cur (k ++ TRANSLATION_SUFFIX) = some (JValue.str s) := by
            by_contra hne
            exact h3 ⟨hcont, hne⟩
          exact fixItemGo_preserve k s rest _ _ _ hrest hval
    · -- the qualifying field sits further down the snapshot
      have hnd2 : (rest.map Prod.fst).Nodup := hnd.2
      cases value with
      | str s2 =>
        rw [fixItemGo]
        by_cases h1 : endsIn key TRANSLATION_SUFFIX = true
        · rw [if_pos h1]; exact ih cur m f hmem2 hnd2
        · rw [if_neg h1]
          by_cases h2 : pyStrip (pyLower s2) ∈ NON_TRANSLATABLE_VALUES
          · rw [if_pos h2]
            by_cases h3 : containsKey cur (key ++ TRANSLATION_SUFFIX) = true ∧
                getVal cur (key ++ TRANSLATION_SUFFIX) ≠ some (JValue.str s2)
            · rw [if_pos h3]; exact ih _ _ _ hmem2 hnd2
            · rw [if_neg h3]
              by_cases h4 : containsKey cur (key ++ TRANSLATION_SUFFIX) = false
              · rw [if_pos h4]; exact ih _ _ _ hmem2 hnd2
              · rw [if_neg h4]; exact ih cur m f hmem2 hnd2
          · rw [if_neg h2]; exact ih cur m f hmem2 hnd2
      | num n =>
        show getVal (fixItemGo rest cur m f).1 _ = _
        exact ih cur m f hmem2 hnd2
      | bool b =>
        show getVal (fixItemGo rest cur m f).1 _ = _
        exact ih cur m f hmem2 hnd2
      | null =>
        show getVal (fixItemGo rest cur m f).1 _ = _
        exact ih cur m f hmem2 hnd2

/-- C6 fails as stated for the initial translation pass: on the record
`{"flag": "true"}` with an available provider (returning `"TRUE"`),
`JSONTranslator._process_item` sends the non-translatable literal to the
provider (the call counter advances to 1) and writes the provider's answer —
not the literal — into the derived field. -/
theorem C6_counterexample :
    getVal (process_item (fun _ _ => some ['T', 'R', 'U', 'E'])
        [(['f', 'l', 'a', 'g'], JValue.str ['t', 'r', 'u', 'e'])] ⟨1, 0, 0, 0⟩ 0).1
        ['f', 'l', 'a', 'g', '-', 'e', 'n'] = some (JValue.str ['T', 'R', 'U', 'E']) ∧
    (process_item (fun _ _ => some ['T', 'R', 'U', 'E'])
        [(['f', 'l', 'a', 'g'], JValue.str ['t', 'r', 'u', 'e'])] ⟨1, 0, 0, 0⟩ 0).2.2 = 1 := by
  decide

/-- C6 (corrected): it is the `NonTranslatableFixer` pass (`_fix_file`), not
the initial translation pass, that guarantees the literal passthrough: for
every record field whose value, lowercased and trimmed, is in the
non-translatable literal set, the fixer ends with the derived field holding
exactly that same literal string; the fixer takes no provider, so no provider
call is made, regardless of provider availability.  The initial translation
pass, by contrast, does call the provider for such fields. -/
theorem C6_fixer_passthrough (item : Item) (k s : List Char)
    (hnd : (item.map Prod.fst).Nodup)
    (hmem : (k, JValue.str s) ∈ item)
    (hk : endsIn k TRANSLATION_SUFFIX = false)
    (hv : pyStrip (pyLower s) ∈ NON_TRANSLATABLE_VALUES) :
    getVal (fix_item item).1 (k ++ TRANSLATION_SUFFIX) = some (JValue.str s) :=
  fixItemGo_sets k s hk hv item item false 0 hmem hnd

theorem C6_fixer_passthrough_witness :
    getVal (fix_item [(['f'], JValue.str ['t', 'r', 'u', 'e'])]).1
        (['f'] ++ TRANSLATION_SUFFIX) = some (JValue.str ['t', 'r', 'u', 'e']) :=
  C6_fixer_passthrough [(['f'], JValue.str ['t', 'r', 'u', 'e'])] ['f'] ['t', 'r', 'u', 'e']
    (by decide) (by decide) (by decide) (by decide)

-- ### C9: file persistence (JSONTranslator.process_file vs TranslationRetrier._retry_file)

/-- Result of `JSONTranslator.process_file` on one (already parsed) file:
the updated records, the statistics, the provider call counter, and whether
the file was written back. -/
structure FileRes : Type where
  data : List Item
  stats : Stats
  calls : Nat
  wrote : Bool
deriving DecidableEq

def processFileGo (p : Provider) : List Item → Stats → Nat → List Item × Stats × Nat
  | [], stats, calls => ([], stats, calls)
  | it :: its, stats, calls =>
    ((process_item p it stats calls).1 ::
        (processFileGo p its (process_item p it stats calls).2.1
          (process_item p it stats calls).2.2).1,
      (processFileGo p its (process_item p it stats calls).2.1
        (process_item p it stats calls).2.2).2)

/-- The method `JSONTranslator.process_file` (after a successful JSON load): sets
`total_items`, processes every record, then saves the file unconditionally
(`json.dump` runs whether or not anything changed). -/
def process_file (p : Provider) (data : List Item) (calls : Nat) : FileRes :=
  { data := (processFileGo p data ⟨data.length, 0, 0, 0⟩ calls).1,
    stats := (processFileGo p data ⟨data.length, 0, 0, 0⟩ calls).2.1,
    calls := (processFileGo p data ⟨data.length, 0, 0, 0⟩ calls).2.2,
    wrote := true }

/-- State threaded through `TranslationRetrier._retry_file`: the current
record, the retried/fixed counters, the file-level `modified` flag and the
provider call counter. -/
structure RetrySt : Type where
  item : Item
  retried : Nat
  fixed : Nat
  modified : Bool
  calls : Nat
deriving DecidableEq

/-- The per-record loop of `TranslationRetrier._retry_file`: a field is
retried when its derived field exists and equals the source value (the
"failed" signature); the derived field is overwritten (and the `modified`
flag set) only when the new translation differs from the source. -/
def retryItemGo (p : Provider) : List (List Char × JValue) → RetrySt → RetrySt
  | [], st => st
  | (key, JValue.str s) :: rest, st =>
    if endsIn key TRANSLATION_SUFFIX then retryItemGo p rest st
    else if pyStrip s = [] then retryItemGo p rest st
    else if getVal st.item (key ++ TRANSLATION_SUFFIX) = some (JValue.str s) then
      if (translate p s st.calls).1 = s then
        retryItemGo p rest
          { st with retried := st.retried + 1, calls := (translate p s st.calls).2 }
      else
        retryItemGo p rest
          { item := setKey st.item (key ++ TRANSLATION_SUFFIX)
              (JValue.str (translate p s st.calls).1),
            retried := st.retried + 1, fixed := st.fixed + 1, modified := true,
            calls := (translate p s st.calls).2 }
    else retryItemGo p rest st
  | (_, _) :: rest, st => retryItemGo p rest st

/-- Result of `TranslationRetrier._retry_file` on one file; the file is
written back exactly when `modified` is true. -/
structure RetryFileRes : Type where
  data : List Item
  retried : Nat
  fixed : Nat
  modified : Bool
  calls : Nat
deriving DecidableEq

def retryFileGo (p : Provider) : List Item → Nat → Nat → Bool → Nat → RetryFileRes
  | [], retried, fixed, modified, calls =>
    { data := [], retried := retried, fixed := fixed, modified := modified, calls := calls }
  | it :: its, retried, fixed, modified, calls =>
    { data := (retryItemGo p it ⟨it, retried, fixed, modified, calls⟩).item ::
        (retryFileGo p its (retryItemGo p it ⟨it, retried, fixed, modified, calls⟩).retried
          (retryItemGo p it ⟨it, retried, fixed, modified, calls⟩).fixed
          (retryItemGo p it ⟨it, retried, fixed, modified, calls⟩).modified
          (retryItemGo p it ⟨it, retried, fixed, modified, calls⟩).calls).data,
      retried := (retryFileGo p its (retryItemGo p it ⟨it, retried, fixed, modified, calls⟩).retried
          (retryItemGo p it ⟨it, retried, fixed, modified, calls⟩).fixed
          (retryItemGo p it ⟨it, retried, fixed, modified, calls⟩).modified
          (retryItemGo p it ⟨it, retried, fixed, modified, calls⟩).calls).retried,
      fixed := (retryFileGo p its (retryItemGo p it ⟨it, retried, fixed, modified, calls⟩).retried
          (retryItemGo p it ⟨it, retried, fixed, modified, calls⟩).fixed
          (retryItemGo p it ⟨it, retried, fixed, modified, calls⟩).modified
          (retryItemGo p it ⟨it, retried, fixed, modified, calls⟩).calls).fixed,
      modified := (retryFileGo p its (retryItemGo p it ⟨it, retried, fixed, modified, calls⟩).retried
          (retryItemGo p it ⟨it, retried, fixed, modified, calls⟩).fixed
          (retryItemGo p it ⟨it, retried, fixed, modified, calls⟩).modified
          (retryItemGo p it ⟨it, retried, fixed, modified, calls⟩).calls).modified,
      calls := (retryFileGo p its (retryItemGo p it ⟨it, retried, fixed, modified, calls⟩).retried
          (retryItemGo p it ⟨it, retried, fixed, modified, calls⟩).fixed
          (retryItemGo p it ⟨it, retried, fixed, modified, calls⟩).modified
          (retryItemGo p it ⟨it, retried, fixed, modified, calls⟩).calls).calls }

/-- The method `TranslationRetrier._retry_file` (after a successful JSON load). -/
def retry_file (p : Provider) (data : List Item) (calls : Nat) : RetryFileRes :=
  retryFileGo p data 0 0 false calls

theorem retryItemGo_mono (p : Provider) :
    ∀ (entries : List (List Char × JValue)) (st : RetrySt), st.modified = true →
      (retryItemGo p entries st).modified = true := by
  intro entries
  induction entries with
  | nil => intro st h; exact h
  | cons e rest ih =>
    intro st h
    obtain ⟨key, value⟩ := e
    cases value with
    | str s =>
      rw [retryItemGo]
      by_cases h1 : endsIn key TRANSLATION_SUFFIX = true
      · rw [if_pos h1]; exact ih st h
      · rw [if_neg h1]
        by_cases h2 : pyStrip s = []
        · rw [if_pos h2]; exact ih st h
        · rw [if_neg h2]
          by_cases h3 : getVal st.item (key ++ TRANSLATION_SUFFIX) = some (JValue.str s)
          · rw [if_pos h3]
            by_cases h4 : (translate p s st.calls).1 = s
            · rw [if_pos h4]; exact ih _ h
            · rw [if_neg h4]; exact ih _ rfl
          · rw [if_neg h3]; exact ih st h
    | num n => exact ih st h
    | bool b => exact ih st h
    | null => exact ih st h

theorem retryItemGo_unmod (p : Provider) :
    ∀ (entries : List (List Char × JValue)) (st : RetrySt),
      (retryItemGo p entries st).modified = false →
      (retryItemGo p entries st).item = st.item ∧ st.modified = false := by
  intro entries
  induction entries with
  | nil => intro st h; exact ⟨rfl, h⟩
  | cons e rest ih =>
    intro st h
    obtain ⟨key, value⟩ := e
    cases value with
    | str s =>
      rw [retryItemGo] at h ⊢
      by_cases h1 : endsIn key TRANSLATION_SUFFIX = true
      · rw [if_pos h1] at h ⊢; exact ih st h
      · rw [if_neg h1] at h ⊢
        by_cases h2 : pyStrip s = []
        · rw [if_pos h2] at h ⊢; exact ih st h
        · rw [if_neg h2] at h ⊢
          by_cases h3 : getVal st.item (key ++ TRANSLATION_SUFFIX) = some (JValue.str s)
          · rw [if_pos h3] at h ⊢
            by_cases h4 : (translate p s st.calls).1 = s
            · rw [if_pos h4] at h ⊢
              obtain ⟨hi, hm⟩ := ih _ h
              exact ⟨hi, hm⟩
            · rw [if_neg h4] at h
              have hmono := retryItemGo_mono p rest
                { item := setKey st.item (key ++ TRANSLATION_SUFFIX)
                    (JValue.str (translate p s st.calls).1),
                  retried := st.retried + 1, fixed := st.fixed + 1, modified := true,
                  calls := (translate p s st.calls).2 } rfl
              rw [h] at hmono
              exact absurd hmono (by simp)
          · rw [if_neg h3] at h ⊢; exact ih st h
    | num n => exact ih st h
    | bool b => exact ih st h
    | null => exact ih st h

theorem retryFileGo_mono (p : Provider) :
    ∀ (its : List Item) (r f c : Nat), (retryFileGo p its r f true c).modified = true := by
  intro its
  induction its with
  | nil => intro r f c; rfl
  | cons it rest ih =>
    intro r f c
    rw [retryFileGo]
    have hm := retryItemGo_mono p it ⟨it, r, f, true, c⟩ rfl
    rw [hm]
    exact ih _ _ _

theorem retryFileGo_unchanged (p : Provider) :
    ∀ (its : List Item) (r f : Nat) (m : Bool) (c : Nat),
      (retryFileGo p its r f m c).modified = false →
      (retryFileGo p its r f m c).data = its ∧ m = false := by
  intro its
  induction its with
  | nil => intro r f m c h; exact ⟨rfl, h⟩
  | cons it rest ih =>
    intro r f m c h
    rw [retryFileGo] at h ⊢
    simp only at h ⊢
    cases hm : (retryItemGo p it ⟨it, r, f, m, c⟩).modified with
    | true =>
      rw [hm] at h
      rw [retryFileGo_mono p rest _ _ _] at h
      exact absurd h (by simp)
    | false =>
      rw [hm] at h
      obtain ⟨hd, _⟩ := ih _ _ _ _ h
      obtain ⟨hi, hm0⟩ := retryItemGo_unmod p it ⟨it, r, f, m, c⟩ hm
      refine ⟨?_, hm0⟩
      rw [hd, hi]

/-- C9 fails as stated for the initial translation pass: on a file whose one
record is already fully translated, `JSONTranslator.process_file` leaves the
data unchanged yet still rewrites the file (the save is unconditional). -/
theorem C9_counterexample :
    (process_file (fun _ _ => none)
        [[(['a'], JValue.str ['x']), (['a', '-', 'e', 'n'], JValue.str ['y'])]] 0).data
      = [[(['a'], JValue.str ['x']), (['a', '-', 'e', 'n'], JValue.str ['y'])]] ∧
    (process_file (fun _ _ => none)
        [[(['a'], JValue.str ['x']), (['a', '-', 'e', 'n'], JValue.str ['y'])]] 0).wrote
      = true := by
  decide

/-- C9 (corrected): `TranslationRetrier._retry_file` persists the file only
when its `modified` flag was set, and when the flag is not set the data is
unchanged; `JSONTranslator.process_file`, by contrast, always rewrites the
file after processing, even when no field was added or modified. -/
theorem C9_persistence (p : Provider) (data : List Item) (calls : Nat) :
    ((retry_file p data calls).modified = false → (retry_file p data calls).data = data) ∧
    (process_file p data calls).wrote = true := by
  constructor
  · intro h
    exact (retryFileGo_unchanged p data 0 0 false calls h).1
  · rfl

theorem C9_persistence_witness :
    (retry_file (fun _ t => some t)
        [[(['a'], JValue.str ['x']), (['a', '-', 'e', 'n'], JValue.str ['z'])]] 0).data
      = [[(['a'], JValue.str ['x']), (['a', '-', 'e', 'n'], JValue.str ['z'])]] ∧
    (process_file (fun _ t => some t)
        [[(['a'], JValue.str ['x']), (['a', '-', 'e', 'n'], JValue.str ['z'])]] 0).wrote
      = true :=
  ⟨(C9_persistence (fun _ t => some t)
      [[(['a'], JValue.str ['x']), (['a', '-', 'e', 'n'], JValue.str ['z'])]] 0).1 (by decide),
    (C9_persistence (fun _ t => some t)
      [[(['a'], JValue.str ['x']), (['a', '-', 'e', 'n'], JValue.str ['z'])]] 0).2⟩

end Jsons
